import Mathlib

/-!
Verification of the storage layer of the LSHash repository
(`lshash/storage.py`).

Embedding conventions:
* Python strings (bucket keys, configuration keys, labels) are modelled as
  lists of character code points, `PyStr := List Nat` (for example the
  character 0 is the code 48, 1 is 49, . is 46, % is 37, _ is 95, h is 104).
* Python values stored in buckets are modelled by the inductive type
  `PyVal` (integers stand in for the numeric entries of feature vectors;
  equality of `PyVal`s models Python equality of the corresponding objects).
* `json.dumps`/`json.loads` round trips are modelled by `jsonDegrade`,
  which collapses tuples to lists, exactly what the JSON wire format does.
  `json.dumps` is injective on degraded values, so a degraded value is a
  faithful stand-in for its serialized byte string.
* `pickle`/`joblib` round trips are the identity and their byte encodings
  are injective, so a value stands in for its own pickle serialization.
* The SHA1 content hash used by the SQLite backend for deduplication is
  modelled injectively: two rows collide on the hash column exactly when
  their serialized values are equal (hash collisions are out of scope).
* Python `set`s are modelled as duplicate-free lists (`setInsert`), and a
  Python loop that can raise is modelled by an `Option`-valued traversal
  (`optionTraverse`): `none` models an uncaught exception.
-/

namespace LSH

/-- Code-point strings: the model of Python `str`. -/
abbrev PyStr := List Nat

/-- Model of the Python values handled by the storage layer: integers
(standing in for vector entries), strings, lists and tuples. -/
inductive PyVal where
  | int  : Int → PyVal
  | str  : PyStr → PyVal
  | list : List PyVal → PyVal
  | tup  : List PyVal → PyVal

mutual

/-- Boolean equality on `PyVal`, written by hand because the automatic
derivation does not handle the nested occurrence of `List PyVal`. -/
def pyBEq : PyVal → PyVal → Bool
  | .int a, .int b => a == b
  | .str a, .str b => a == b
  | .list a, .list b => pyListBEq a b
  | .tup a, .tup b => pyListBEq a b
  | _, _ => false

/-- Boolean equality on lists of `PyVal`. -/
def pyListBEq : List PyVal → List PyVal → Bool
  | [], [] => true
  | a :: as, b :: bs => pyBEq a b && pyListBEq as bs
  | _, _ => false

end

mutual

theorem pyBEq_eq : ∀ a b, pyBEq a b = true ↔ a = b
  | .int _, .int _ => by simp [pyBEq]
  | .int _, .str _ => by simp [pyBEq]
  | .int _, .list _ => by simp [pyBEq]
  | .int _, .tup _ => by simp [pyBEq]
  | .str _, .int _ => by simp [pyBEq]
  | .str _, .str _ => by simp [pyBEq]
  | .str _, .list _ => by simp [pyBEq]
  | .str _, .tup _ => by simp [pyBEq]
  | .list _, .int _ => by simp [pyBEq]
  | .list _, .str _ => by simp [pyBEq]
  | .list a, .list b => by simp [pyBEq, pyListBEq_eq a b]
  | .list _, .tup _ => by simp [pyBEq]
  | .tup _, .int _ => by simp [pyBEq]
  | .tup _, .str _ => by simp [pyBEq]
  | .tup _, .list _ => by simp [pyBEq]
  | .tup a, .tup b => by simp [pyBEq, pyListBEq_eq a b]

theorem pyListBEq_eq : ∀ a b, pyListBEq a b = true ↔ a = b
  | [], [] => by simp [pyListBEq]
  | [], _ :: _ => by simp [pyListBEq]
  | _ :: _, [] => by simp [pyListBEq]
  | a :: as, b :: bs => by
      simp [pyListBEq, pyBEq_eq a b, pyListBEq_eq as bs]

end

instance : DecidableEq PyVal := fun a b => decidable_of_iff _ (pyBEq_eq a b)

mutual

/-- Model of a `json.dumps`/`json.loads` round trip: JSON has no tuple
type, so every tuple degrades to a list on the wire; everything else is
kept as is.  Since `json.dumps` is injective on degraded values,
`jsonDegrade v` also stands for the serialized text of `v`. -/
def jsonDegrade : PyVal → PyVal
  | .int n => .int n
  | .str s => .str s
  | .list l => .list (jsonDegradeList l)
  | .tup l => .list (jsonDegradeList l)

/-- Pointwise `jsonDegrade` on a list of values. -/
def jsonDegradeList : List PyVal → List PyVal
  | [] => []
  | x :: xs => jsonDegrade x :: jsonDegradeList xs

end

mutual

theorem jsonDegrade_idem : ∀ v, jsonDegrade (jsonDegrade v) = jsonDegrade v
  | .int _ => rfl
  | .str _ => rfl
  | .list l => by simp [jsonDegrade, jsonDegradeList_idem l]
  | .tup l => by simp [jsonDegrade, jsonDegradeList_idem l]

theorem jsonDegradeList_idem :
    ∀ l, jsonDegradeList (jsonDegradeList l) = jsonDegradeList l
  | [] => rfl
  | x :: xs => by simp [jsonDegradeList, jsonDegrade_idem x, jsonDegradeList_idem xs]

end

/-- Content equality of two stored values: equality of the underlying
vector entries and labels, ignoring the tuple/list distinction (the spec
compares results by vector elements and labels, not by sequence kind). -/
def contentEq (a b : PyVal) : Bool := jsonDegrade a == jsonDegrade b

/-- The three precision levels of the relational backend
(`Levels = namedtuple(...)("high", "medium", "low")`). -/
inductive Level where
  | high : Level
  | medium : Level
  | low : Level
deriving DecidableEq

/-- Numerators of the level coefficients `_LEVELS_KEY_COEFFICIENTS`
over the common denominator 4: 1.0 = 4/4, 0.75 = 3/4, 0.5 = 2/4.
The floats 1.0, 0.75 and 0.5 are exactly representable, so Python's
`int(len(key) * coeff)` equals the floor `len(key) * num / 4` for every
realistic key length (exactly whenever `3 * len(key) < 2 ** 53`). -/
def levelCoeffNum : Level → Nat
  | .high => 4
  | .medium => 3
  | .low => 2

/-- Model of the Python slice `s[0::2]`: every second element, starting
at index 0. -/
def sliceStep2 : List Nat → List Nat
  | [] => []
  | [a] => [a]
  | a :: _ :: rest => a :: sliceStep2 rest

/-- Model of `key[0::2] + key[1::2]` from `_get_level_key_value`: the
interleaved rewrite of the key. -/
def mixedKey (key : PyStr) : PyStr := sliceStep2 key ++ sliceStep2 key.tail

/-- Model of `SQLiteStorage._get_level_key_value`: the level-derived key.
`size = int(len(key) * coefficient)`; the High key is `key[:size]`, the
Medium/Low keys are `mixed_key[:size]`. -/
def getLevelKeyValue (key : PyStr) (level : Level) : PyStr :=
  let size := key.length * levelCoeffNum level / 4
  match level with
  | .high => key.take size
  | _ => (mixedKey key).take size

mutual

/-- Specification-side reading of the characters at positions 0,2,4,…
of a string (the first summand of the interleave described in the spec). -/
def charsAtEvenPositions : PyStr → PyStr
  | [] => []
  | a :: rest => a :: charsAtOddPositions rest

/-- Specification-side reading of the characters at positions 1,3,5,…
of a string. -/
def charsAtOddPositions : PyStr → PyStr
  | [] => []
  | _ :: rest => charsAtEvenPositions rest

end

theorem sliceStep2_eq_evens : ∀ l, sliceStep2 l = charsAtEvenPositions l
  | [] => rfl
  | [a] => rfl
  | a :: b :: rest => by
      simp [sliceStep2, charsAtEvenPositions, charsAtOddPositions,
        sliceStep2_eq_evens rest]

theorem sliceStep2_tail_eq_odds : ∀ l, sliceStep2 (List.tail l) = charsAtOddPositions l
  | [] => rfl
  | [_] => rfl
  | _ :: b :: rest => by
      simp [charsAtOddPositions, sliceStep2_eq_evens (b :: rest)]

theorem sliceStep2_length : ∀ l : List Nat, (sliceStep2 l).length = (l.length + 1) / 2
  | [] => rfl
  | [_] => by simp [sliceStep2]
  | _ :: _ :: rest => by
      simp [sliceStep2, sliceStep2_length rest]
      omega

theorem mixedKey_length (key : PyStr) : (mixedKey key).length = key.length := by
  cases key with
  | nil => rfl
  | cons a rest =>
      simp [mixedKey, sliceStep2_length, List.length_append]
      omega

/-- ASCII case folding of one code point, as done by SQLite `LIKE` for
ASCII characters: uppercase letters (codes 65 to 90) fold to lowercase,
everything else is unchanged. -/
def likeFold (c : Nat) : Nat := if 65 ≤ c && c ≤ 90 then c + 32 else c

/-- Helper for the `%` wildcard: `likeMatchStar mrest s` holds when some
suffix of `s` satisfies `mrest`, i.e. `%` consumes a (possibly empty)
leading segment of `s`. -/
def likeMatchStar (mrest : PyStr → Bool) : PyStr → Bool
  | [] => mrest []
  | c :: s2 => mrest (c :: s2) || likeMatchStar mrest s2

/-- Model of the SQLite `LIKE` operator, `string LIKE pattern` written as
`likeMatch pattern string`: code 37 (the character %) matches any
sequence, code 95 (the character _) matches any single character, and
any other character matches case-insensitively for ASCII. -/
def likeMatch : PyStr → PyStr → Bool
  | [], s => s.isEmpty
  | p :: ps, s =>
      if p = 37 then likeMatchStar (likeMatch ps) s
      else if p = 95 then
        match s with
        | [] => false
        | _ :: s2 => likeMatch ps s2
      else
        match s with
        | [] => false
        | c :: s2 => (likeFold p == likeFold c) && likeMatch ps s2

/-- Model of Python's `str.split`, specialised to the separator `.`
(code 46), as used by `RedisStorage.keys`. -/
def splitOnDot : PyStr → List PyStr
  | [] => [[]]
  | c :: rest =>
      match splitOnDot rest with
      | h :: t => if c == 46 then [] :: h :: t else (c :: h) :: t
      | [] => [[c]]

/-- Decimal digits (as code points) of a positive number, produced with
explicit fuel so that the definition is structurally recursive. -/
def digitsAux : Nat → Nat → PyStr
  | _, 0 => []
  | 0, _ => []
  | fuel + 1, n + 1 => digitsAux fuel ((n + 1) / 10) ++ [(n + 1) % 10 + 48]

/-- Decimal representation of a natural number as a code-point string. -/
def decimalRepr (n : Nat) : PyStr := if n = 0 then [48] else digitsAux n n

/-- Model of `'h%.2i.' % int(h_index)` from `RedisStorage.__init__`: the
namespace tag prepended to every bucket key, the letter h (code 104)
followed by the index zero-padded to at least two digits and a dot. -/
def hTag (hIndex : Nat) : PyStr :=
  104 :: (if hIndex < 10 then 48 :: decimalRepr hIndex else decimalRepr hIndex) ++ [46]

/-- Model of `k.decode('ascii').split('.')[1]` from `RedisStorage.keys`:
the part of a namespaced key between the first and second dot.  The
index 1 exists for every key the backend itself stored; an out-of-range
index (a Python `IndexError`) is modelled by the empty string. -/
def stripKey (fullKey : PyStr) : PyStr :=
  match splitOnDot fullKey with
  | _ :: second :: _ => second
  | _ => []

/-- Lookup in an association list keyed by strings (the model of Python
dictionary access and of addressing one Redis key or one table). -/
def assocFind {α : Type} : List (PyStr × α) → PyStr → Option α
  | [], _ => none
  | (k0, a) :: rest, k => if k0 = k then some a else assocFind rest k

/-- Model of inserting into a Python `set` (or of Redis `SADD`): sets are
duplicate-free lists, and inserting an existing member is a no-op. -/
def setInsert (l : List PyVal) (v : PyVal) : List PyVal :=
  if v ∈ l then l else l ++ [v]

/-- Model of a Python loop over decoded elements in which each step can
raise: `none` models an uncaught exception aborting the whole call. -/
def optionTraverse (f : PyVal → Option PyVal) : List PyVal → Option (List PyVal)
  | [] => some []
  | a :: l =>
      match f a, optionTraverse f l with
      | some b, some bs => some (b :: bs)
      | _, _ => none

/-! ### The in-memory backend (`InMemoryStorage`) -/

/-- Model of `InMemoryStorage`: an insertion-ordered dictionary from
bucket key to a set of values (`self.storage = dict()`). -/
structure InMemoryStorage where
  storage : List (PyStr × List PyVal)
deriving DecidableEq

/-- Update of one key of an insertion-ordered dictionary of sets, as in
`self.storage.setdefault(key, set()).update([val])`. -/
def assocUpdate : List (PyStr × List PyVal) → PyStr → PyVal → List (PyStr × List PyVal)
  | [], k, v => [(k, [v])]
  | (k0, s0) :: rest, k, v =>
      if k0 = k then (k0, setInsert s0 v) :: rest
      else (k0, s0) :: assocUpdate rest k v

/-- Model of `InMemoryStorage.append_val`. -/
def inMemoryAppendVal (s : InMemoryStorage) (key : PyStr) (v : PyVal) : InMemoryStorage :=
  ⟨assocUpdate s.storage key v⟩

/-- Model of `InMemoryStorage.get_list`: `list(self.storage.get(key, []))`. -/
def inMemoryGetList (s : InMemoryStorage) (key : PyStr) : List PyVal :=
  (assocFind s.storage key).getD []

/-- Model of `InMemoryStorage.keys`: `self.storage.keys()`. -/
def inMemoryKeys (s : InMemoryStorage) : List PyStr :=
  s.storage.map Prod.fst

/-- State reached by a sequence of `append_val` calls on a fresh
in-memory backend. -/
def runInMemory (ops : List (PyStr × PyVal)) : InMemoryStorage :=
  ops.foldl (fun s op => inMemoryAppendVal s op.1 op.2) ⟨[]⟩

/-! ### The Redis backend (`RedisStorage`) -/

/-- Model of the key space of one Redis server: a map from full
(namespaced) key to the set of serialized members stored under it.  A
member, the text produced by `json.dumps(val)`, is represented by the
degraded value it decodes back to (`json.dumps` is injective on degraded
values). -/
structure RedisServer where
  data : List (PyStr × List PyVal)
deriving DecidableEq

/-- Model of `SADD`: add one member to the set at a key, creating the
key if needed; adding an existing member is a no-op. -/
def serverSadd : List (PyStr × List PyVal) → PyStr → PyVal → List (PyStr × List PyVal)
  | [], k, v => [(k, [v])]
  | (k0, s0) :: rest, k, v =>
      if k0 = k then (k0, setInsert s0 v) :: rest
      else (k0, s0) :: serverSadd rest k v

/-- Model of `SMEMBERS` of one key (empty when the key is absent). -/
def serverMembers (s : RedisServer) (k : PyStr) : List PyVal :=
  (assocFind s.data k).getD []

/-- Model of `RedisStorage.append_val`:
`self.storage.sadd(self.h_index + key, json.dumps(val))`. -/
def redisAppendVal (hIndex : Nat) (s : RedisServer) (key : PyStr) (v : PyVal) : RedisServer :=
  ⟨serverSadd s.data (hTag hIndex ++ key) (jsonDegrade v)⟩

/-- Model of the per-element reshaping in `RedisStorage.get_list`: after
`json.loads`, when the payload has length 2 and its first element is a
list, that first element is replaced by a tuple; then the payload itself
is turned into a tuple.  `len(el)` raises `TypeError` on a number, which
is modelled by `none`; a string of length n turns into a tuple of its n
one-character strings. -/
def redisDecodeElem : PyVal → Option PyVal
  | .int _ => none
  | .str s => some (.tup (s.map fun c => .str [c]))
  | .list l =>
      match l with
      | [a, b] =>
          match a with
          | .list inner => some (.tup [.tup inner, b])
          | _ => some (.tup [a, b])
      | _ => some (.tup l)
  | .tup l => some (.tup l)

/-- Model of `RedisStorage.get_list`: read the whole remote set, decode
each member and reshape it. -/
def redisGetList (hIndex : Nat) (s : RedisServer) (key : PyStr) : Option (List PyVal) :=
  optionTraverse redisDecodeElem (serverMembers s (hTag hIndex ++ key))

/-- Model of `RedisStorage.keys` with the default pattern: the server
enumerates the keys matching `self.h_index + '*'` (i.e. the keys with
the literal namespace tag as a prefix, since the tag contains no glob
metacharacters), and each is stripped via `split('.')[1]`. -/
def redisKeys (hIndex : Nat) (s : RedisServer) : List PyStr :=
  ((s.data.map Prod.fst).filter fun k => (hTag hIndex).isPrefixOf k).map stripKey

/-- State reached by a sequence of `append_val` calls of one Redis
backend instance against a fresh server. -/
def runRedis (hIndex : Nat) (ops : List (PyStr × PyVal)) : RedisServer :=
  ops.foldl (fun s op => redisAppendVal hIndex s op.1 op.2) ⟨[]⟩

/-! ### The SQLite backend (`SQLiteStorage`) -/

/-- The two serialization protocols `serializer(protocol)` can select. -/
inductive SerKind where
  | json : SerKind
  | pickle : SerKind
deriving DecidableEq

/-- Model of `self.serializer.dumps`: a serialized blob is represented by
the value `loads` gives back from it.  For pickle (and joblib) that is
the value itself; for JSON it is the degraded value.  Both encodings are
injective on these representatives, so equality of representatives is
equality of serialized byte strings, which is what the SHA1 content hash
compares (`_compute_hash`). -/
def serializeVal : SerKind → PyVal → PyVal
  | .json, v => jsonDegrade v
  | .pickle, v => v

/-- Model of one row of the no-levels table
`(key Text, value_hash Text, value Blob)`: the hash column is determined
by the value column, so it is not stored separately. -/
structure SqliteRow where
  key : PyStr
  value : PyVal
deriving DecidableEq

/-- Model of the no-levels table contents, in insertion order. -/
structure SqliteTable where
  rows : List SqliteRow
deriving DecidableEq

/-- Model of `SQLiteStorage.append_val` with levels disabled: an INSERT
whose violation of the unique index on `(key, value_hash)` is caught and
ignored, leaving the table unchanged. -/
def sqliteAppendVal (sk : SerKind) (t : SqliteTable) (key : PyStr) (v : PyVal) : SqliteTable :=
  let sv := serializeVal sk v
  if t.rows.any fun r => r.key == key && r.value == sv then t
  else ⟨t.rows ++ [⟨key, sv⟩]⟩

/-- Model of `tuple(val)` applied to a deserialized value in
`SQLiteStorage.get_list`: lists and tuples become tuples of their
elements, a string becomes the tuple of its one-character strings, and a
number raises `TypeError` (modelled by `none`). -/
def tupleOfVal : PyVal → Option PyVal
  | .int _ => none
  | .str s => some (.tup (s.map fun c => .str [c]))
  | .list l => some (.tup l)
  | .tup l => some (.tup l)

/-- Model of `SQLiteStorage.get_list` with levels disabled: select the
rows whose key column matches `WHERE key like ?` with the requested key
as the pattern, deserialize each value and return `tuple(val)` of each.
The reshaping loop in the source iterates over `raw_result`, whose
elements are 1-tuples of a blob, so its body never runs and it changes
nothing; it is therefore not part of the model. -/
def sqliteGetList (t : SqliteTable) (key : PyStr) : Option (List PyVal) :=
  optionTraverse tupleOfVal ((t.rows.filter fun r => likeMatch key r.key).map SqliteRow.value)

/-- Membership-preserving deduplication keeping first occurrences, the
model of `SELECT DISTINCT`. -/
def dedupAux (seen : List PyStr) : List PyStr → List PyStr
  | [] => []
  | k :: rest => if k ∈ seen then dedupAux seen rest else k :: dedupAux (k :: seen) rest

/-- Model of `SQLiteStorage.keys` with levels disabled:
`SELECT DISTINCT(key) FROM table`. -/
def sqliteKeys (t : SqliteTable) : List PyStr :=
  dedupAux [] (t.rows.map SqliteRow.key)

/-- State reached by a sequence of `append_val` calls on a fresh
no-levels SQLite table. -/
def runSqlite (sk : SerKind) (ops : List (PyStr × PyVal)) : SqliteTable :=
  ops.foldl (fun t op => sqliteAppendVal sk t op.1 op.2) ⟨[]⟩

/-- Model of one row of the levels-enabled table
`(key_high Text, key_medium Text, key_low Text, value_hash Text,
value Blob)`. -/
structure SqliteLevelRow where
  keyHigh : PyStr
  keyMedium : PyStr
  keyLow : PyStr
  value : PyVal
deriving DecidableEq

/-- Model of the levels-enabled table contents. -/
structure SqliteLevelTable where
  rows : List SqliteLevelRow
deriving DecidableEq

/-- Model of `SQLiteStorage.append_val` with levels enabled: the three
derived keys are computed by `_get_level_key_value` and stored, and the
unique index on `(key_high, value_hash)` deduplicates. -/
def sqliteLevelAppendVal (sk : SerKind) (t : SqliteLevelTable) (key : PyStr) (v : PyVal) :
    SqliteLevelTable :=
  let sv := serializeVal sk v
  let kh := getLevelKeyValue key .high
  if t.rows.any fun r => r.keyHigh == kh && r.value == sv then t
  else ⟨t.rows ++ [⟨kh, getLevelKeyValue key .medium, getLevelKeyValue key .low, sv⟩]⟩

/-- The column of a levels-enabled row selected by a level. -/
def levelColumn (r : SqliteLevelRow) : Level → PyStr
  | .high => r.keyHigh
  | .medium => r.keyMedium
  | .low => r.keyLow

/-- Model of `SQLiteStorage.get_list` with levels enabled:
`WHERE key_<level> like ?` (the default level is High). -/
def sqliteLevelGetList (t : SqliteLevelTable) (key : PyStr) (level : Level) :
    Option (List PyVal) :=
  optionTraverse tupleOfVal
    ((t.rows.filter fun r => likeMatch key (levelColumn r level)).map SqliteLevelRow.value)

/-- Model of `SQLiteStorage.keys` with levels enabled:
`SELECT DISTINCT(key_<level>)`. -/
def sqliteLevelKeys (t : SqliteLevelTable) (level : Level) : List PyStr :=
  dedupAux [] (t.rows.map fun r => levelColumn r level)

/-! ### Table naming and the shared-database model

The constructor computes `table = f"{self.table}.{h_index}"` when
`h_index` is truthy and hands that name to `_create_table` only; every
SQL statement of `keys`, `append_val` and `get_list` instead names
`self.table`, which never includes `h_index`. -/

/-- Name of the table the constructor creates,
`f"{self.table}.{h_index}" if h_index else self.table` (code 46 is the
dot; for a nonzero index the dotted name is what real SQLite parses as a
schema-qualified name, making the CREATE fail). -/
def sqliteCreateTableName (table : PyStr) (hIndex : Nat) : PyStr :=
  if hIndex ≠ 0 then table ++ [46] ++ decimalRepr hIndex else table

/-- Name of the table all DML of `keys`/`append_val`/`get_list` runs
against: `self.table`, independent of the index identifier. -/
def sqliteDmlTableName (table : PyStr) (hIndex : Nat) : PyStr := table

/-- Model of one SQLite database file shared by several backend
instances: a map from table name to no-levels table contents. -/
structure SqliteDatabase where
  tables : List (PyStr × SqliteTable)

/-- Model of `CREATE TABLE IF NOT EXISTS` inside a shared database. -/
def dbCreateTable (db : SqliteDatabase) (name : PyStr) : SqliteDatabase :=
  if (db.tables.map Prod.fst).contains name then db else ⟨db.tables ++ [(name, ⟨[]⟩)]⟩

/-- The contents a table name denotes inside a shared database. -/
def dbTable (db : SqliteDatabase) (name : PyStr) : SqliteTable :=
  (assocFind db.tables name).getD ⟨[]⟩

/-- Replacement of one table inside a shared database. -/
def dbSetTable : List (PyStr × SqliteTable) → PyStr → SqliteTable → List (PyStr × SqliteTable)
  | [], n, t => [(n, t)]
  | (n0, t0) :: rest, n, t =>
      if n0 = n then (n0, t) :: rest else (n0, t0) :: dbSetTable rest n t

/-- Model of `SQLiteStorage.append_val` of an instance with base table
name `table` and index `hIndex` running against a shared database: the
statement is executed against the DML table name. -/
def dbAppendVal (db : SqliteDatabase) (table : PyStr) (hIndex : Nat) (sk : SerKind)
    (key : PyStr) (v : PyVal) : SqliteDatabase :=
  let n := sqliteDmlTableName table hIndex
  ⟨dbSetTable db.tables n (sqliteAppendVal sk (dbTable db n) key v)⟩

/-- Model of `SQLiteStorage.get_list` of an instance against a shared
database. -/
def dbGetList (db : SqliteDatabase) (table : PyStr) (hIndex : Nat) (key : PyStr) :
    Option (List PyVal) :=
  sqliteGetList (dbTable db (sqliteDmlTableName table hIndex)) key

/-! ### The factory (`storage`) and construction-time errors -/

/-- The code-point string dict. -/
def dictKey : PyStr := [100, 105, 99, 116]

/-- The code-point string redis. -/
def redisKey : PyStr := [114, 101, 100, 105, 115]

/-- The code-point string sqlite. -/
def sqliteKey : PyStr := [115, 113, 108, 105, 116, 101]

/-- The two construction-time errors of the storage layer: the factory's
`ValueError` for an unrecognized configuration and the `ImportError`
raised by `RedisStorage.__init__` when redis-py is absent. -/
inductive StorageError where
  | valueError : StorageError
  | importError : StorageError
deriving DecidableEq

/-- The kind of backend instance a successful construction returns. -/
inductive BackendTag where
  | dict : BackendTag
  | redis : BackendTag
  | sqlite : BackendTag
deriving DecidableEq

/-- Outcome of a construction attempt: either a backend instance of some
kind, or a raised configuration error (no instance is returned). -/
inductive FactoryResult where
  | ok : BackendTag → FactoryResult
  | error : StorageError → FactoryResult
deriving DecidableEq

/-- Model of the `storage(storage_config, index)` factory together with
the availability check of `RedisStorage.__init__`: the configuration is
represented by the list of its keys, and `redisAvailable` models whether
the redis-py import succeeded. -/
def storageFactory (cfgKeys : List PyStr) (redisAvailable : Bool) : FactoryResult :=
  if dictKey ∈ cfgKeys then .ok .dict
  else if redisKey ∈ cfgKeys then
    if redisAvailable then .ok .redis else .error .importError
  else if sqliteKey ∈ cfgKeys then .ok .sqlite
  else .error .valueError

/-! ### General helper lemmas -/

/-- Bit strings: the keys the hashing stage actually produces, built only
from the characters 0 and 1 (codes 48 and 49). -/
def isBitStr (s : PyStr) : Bool := s.all fun c => c == 48 || c == 49

theorem div_three_quarters_eq (L M : Nat) (h : L * 3 / 4 = M * 3 / 4) : L / 2 = M / 2 := by
  have hL : L = 4 * (L / 4) + L % 4 := (Nat.div_add_mod L 4).symm
  have hM : M = 4 * (M / 4) + M % 4 := (Nat.div_add_mod M 4).symm
  have hrL : L % 4 < 4 := Nat.mod_lt _ (by norm_num)
  have hrM : M % 4 < 4 := Nat.mod_lt _ (by norm_num)
  set qL := L / 4
  set rL := L % 4
  set qM := M / 4
  set rM := M % 4
  rw [hL, hM] at h ⊢
  interval_cases rL <;> interval_cases rM <;> omega

theorem likeMatchStar_of_here (f : PyStr → Bool) (s : PyStr) (h : f s = true) :
    likeMatchStar f s = true := by
  cases s <;> simp [likeMatchStar, h]

theorem likeMatch_self : ∀ s, likeMatch s s = true
  | [] => rfl
  | c :: s2 => by
      by_cases h37 : c = 37
      · subst h37
        have hrec : likeMatchStar (likeMatch s2) s2 = true :=
          likeMatchStar_of_here _ _ (likeMatch_self s2)
        simp [likeMatch, likeMatchStar, hrec]
      · by_cases h95 : c = 95
        · subst h95
          simp [likeMatch, likeMatch_self s2]
        · simp [likeMatch, h37, h95, likeMatch_self s2]

theorem likeFold_eq_digit (d c : Nat) (hc : c < 65) : (likeFold d == c) = (d == c) := by
  simp only [likeFold]
  split
  · next h =>
      simp only [Bool.and_eq_true, decide_eq_true_eq] at h
      have e1 : (d + 32 == c) = false := beq_eq_false_iff_ne.mpr (by omega)
      have e2 : (d == c) = false := beq_eq_false_iff_ne.mpr (by omega)
      rw [e1, e2]
  · rfl

theorem likeMatch_bit : ∀ p s, isBitStr p = true → likeMatch p s = (p == s)
  | [], s, _ => by cases s <;> simp [likeMatch, List.isEmpty]
  | c :: ps, s, hp => by
      have hc : (c = 48 ∨ c = 49) ∧ isBitStr ps = true := by
        simp [isBitStr] at hp ⊢
        tauto
      have h37 : c ≠ 37 := by rcases hc.1 with h | h <;> omega
      have h95 : c ≠ 95 := by rcases hc.1 with h | h <;> omega
      have hc65 : c < 65 := by rcases hc.1 with h | h <;> omega
      cases s with
      | nil => simp [likeMatch, h37, h95]
      | cons d s2 =>
          have hfold : (likeFold c == likeFold d) = (c == d) := by
            have h1 : likeFold c = c := by
              rcases hc.1 with h | h <;> subst h <;> rfl
            rw [h1, BEq.comm, likeFold_eq_digit d c hc65, BEq.comm]
          simp only [likeMatch, h37, h95, if_false, if_neg h37, if_neg h95, hfold,
            likeMatch_bit ps s2 hc.2, List.cons_beq_cons]

/-! ### Lemmas about splitting namespaced keys -/

theorem splitOnDot_ne_nil : ∀ s, splitOnDot s ≠ []
  | [] => by simp [splitOnDot]
  | c :: rest => by
      have := splitOnDot_ne_nil rest
      simp only [splitOnDot]
      cases h : splitOnDot rest with
      | nil => exact absurd h this
      | cons a t => by_cases hc : (c == 46) = true <;> simp [hc]

theorem splitOnDot_no_sep : ∀ s, (46 ∈ s → False) → splitOnDot s = [s]
  | [], _ => rfl
  | c :: rest, h => by
      have hc : ¬(c == 46) = true := by
        simp only [beq_iff_eq]
        intro hh
        exact h (by simp [hh])
      have hrest := splitOnDot_no_sep rest (fun hm => h (by simp [hm]))
      simp [splitOnDot, hrest, hc]

theorem splitOnDot_append_sep : ∀ a k, (46 ∈ a → False) →
    splitOnDot (a ++ 46 :: k) = a :: splitOnDot k
  | [], k, _ => by
      simp only [List.nil_append, splitOnDot]
      cases h : splitOnDot k with
      | nil => exact absurd h (splitOnDot_ne_nil k)
      | cons x t => simp
  | c :: a2, k, h => by
      have hc : ¬(c == 46) = true := by
        simp only [beq_iff_eq]
        intro hh
        exact h (by simp [hh])
      have hrec := splitOnDot_append_sep a2 k (fun hm => h (by simp [hm]))
      simp [splitOnDot, hrec, hc]

theorem digitsAux_ge : ∀ fuel n c, c ∈ digitsAux fuel n → 48 ≤ c := by
  intro fuel
  induction fuel with
  | zero => intro n c hc; cases n <;> simp [digitsAux] at hc
  | succ f ih =>
      intro n c hc
      cases n with
      | zero => simp [digitsAux] at hc
      | succ m =>
          simp only [digitsAux, List.mem_append, List.mem_singleton] at hc
          rcases hc with hc | hc
          · exact ih _ _ hc
          · omega

theorem decimalRepr_ge (n c : Nat) (hc : c ∈ decimalRepr n) : 48 ≤ c := by
  by_cases h : n = 0
  · subst h
    simp [decimalRepr] at hc
    omega
  · simp [decimalRepr, h] at hc
    exact digitsAux_ge n n c hc

/-- The body of the namespace tag between the leading h and the dot. -/
def hTagBody (hIndex : Nat) : PyStr :=
  if hIndex < 10 then 48 :: decimalRepr hIndex else decimalRepr hIndex

theorem hTag_eq (hIndex : Nat) : hTag hIndex = (104 :: hTagBody hIndex) ++ [46] := by
  simp [hTag, hTagBody]

theorem hTagBody_no_dot (hIndex : Nat) : 46 ∈ hTagBody hIndex → False := by
  intro h
  simp only [hTagBody] at h
  split at h
  · rcases List.mem_cons.mp h with h | h
    · omega
    · have := decimalRepr_ge hIndex 46 h
      omega
  · have := decimalRepr_ge hIndex 46 h
    omega

theorem stripKey_hTag_append (hIndex : Nat) (k : PyStr) (hk : 46 ∈ k → False) :
    stripKey (hTag hIndex ++ k) = k := by
  have hsplit : splitOnDot ((104 :: hTagBody hIndex) ++ 46 :: k)
      = (104 :: hTagBody hIndex) :: splitOnDot k := by
    apply splitOnDot_append_sep
    intro hm
    rcases List.mem_cons.mp hm with hm | hm
    · omega
    · exact hTagBody_no_dot hIndex hm
  have harr : hTag hIndex ++ k = (104 :: hTagBody hIndex) ++ 46 :: k := by
    rw [hTag_eq]
    simp
  rw [stripKey, harr, hsplit, splitOnDot_no_sep k hk]

/-! ### Lemmas about set insertion and association updates -/

theorem setInsert_mem (l : List PyVal) (v : PyVal) : v ∈ setInsert l v := by
  by_cases h : v ∈ l <;> simp [setInsert, h]

theorem setInsert_of_mem (l : List PyVal) (v : PyVal) (h : v ∈ l) : setInsert l v = l := by
  simp [setInsert, h]

theorem setInsert_idem (l : List PyVal) (v : PyVal) :
    setInsert (setInsert l v) v = setInsert l v :=
  setInsert_of_mem _ _ (setInsert_mem l v)

theorem mem_setInsert_iff (l : List PyVal) (v x : PyVal) :
    x ∈ setInsert l v ↔ x ∈ l ∨ x = v := by
  by_cases h : v ∈ l <;> simp [setInsert, h]
  rintro rfl
  exact h

theorem serverSadd_eq_assocUpdate : ∀ d k v, serverSadd d k v = assocUpdate d k v
  | [], _, _ => rfl
  | (k0, s0) :: rest, k, v => by
      by_cases h : k0 = k <;>
        simp [serverSadd, assocUpdate, h, serverSadd_eq_assocUpdate rest k v]

theorem assocUpdate_idem : ∀ (d : List (PyStr × List PyVal)) k v,
    assocUpdate (assocUpdate d k v) k v = assocUpdate d k v
  | [], k, v => by simp [assocUpdate, setInsert]
  | (k0, s0) :: rest, k, v => by
      by_cases h : k0 = k <;>
        simp [assocUpdate, h, setInsert_idem, assocUpdate_idem rest k v]

theorem assocFind_assocUpdate_self : ∀ (d : List (PyStr × List PyVal)) k v,
    assocFind (assocUpdate d k v) k = some (setInsert ((assocFind d k).getD []) v)
  | [], k, v => by simp [assocUpdate, assocFind, setInsert]
  | (k0, s0) :: rest, k, v => by
      by_cases h : k0 = k <;>
        simp [assocUpdate, assocFind, h, assocFind_assocUpdate_self rest k v]

theorem assocFind_assocUpdate_other : ∀ (d : List (PyStr × List PyVal)) k k2 v,
    k2 ≠ k → assocFind (assocUpdate d k v) k2 = assocFind d k2
  | [], k, k2, v, h => by
      have hne : ¬ k = k2 := fun hh => h hh.symm
      simp [assocUpdate, assocFind, hne]
  | (k0, s0) :: rest, k, k2, v, h => by
      by_cases h0 : k0 = k
      · subst h0
        have hne : ¬ k0 = k2 := fun hh => h hh.symm
        simp [assocUpdate, assocFind, hne]
      · simp only [assocUpdate, if_neg h0, assocFind]
        by_cases h2 : k0 = k2
        · simp [h2]
        · simp [h2, assocFind_assocUpdate_other rest k k2 v h]

theorem mem_map_fst_assocUpdate : ∀ (d : List (PyStr × List PyVal)) k v x,
    x ∈ (assocUpdate d k v).map Prod.fst ↔ x ∈ d.map Prod.fst ∨ x = k
  | [], k, v, x => by simp [assocUpdate]
  | (k0, s0) :: rest, k, v, x => by
      by_cases h : k0 = k
      · subst h
        simp [assocUpdate]
        tauto
      · simp [assocUpdate, h, mem_map_fst_assocUpdate rest k v x]
        tauto

theorem assocFind_eq_none {α : Type} : ∀ (d : List (PyStr × α)) k,
    k ∉ d.map Prod.fst → assocFind d k = none
  | [], _, _ => rfl
  | (k0, a0) :: rest, k, h => by
      simp only [List.map_cons, List.mem_cons, not_or] at h
      have hne : ¬ k0 = k := fun hh => h.1 hh.symm
      simp [assocFind, hne, assocFind_eq_none rest k h.2]

theorem assocFind_mem {α : Type} : ∀ (d : List (PyStr × α)) k a,
    assocFind d k = some a → (k, a) ∈ d
  | [], k, a, h => by simp [assocFind] at h
  | (k0, a0) :: rest, k, a, h => by
      by_cases h0 : k0 = k
      · subst h0
        simp [assocFind] at h
        simp [h]
      · simp only [assocFind, if_neg h0] at h
        exact List.mem_cons_of_mem _ (assocFind_mem rest k a h)

/-! ### Lemmas about the option-valued traversal -/

theorem optionTraverse_some (f : PyVal → Option PyVal) :
    ∀ l, (∀ x ∈ l, (f x).isSome = true) →
      ∃ l2, optionTraverse f l = some l2 ∧ ∀ x ∈ l, ∀ y, f x = some y → y ∈ l2
  | [], _ => ⟨[], rfl, by simp⟩
  | a :: l, h => by
      obtain ⟨b, hb⟩ := Option.isSome_iff_exists.mp (h a (by simp))
      obtain ⟨l2, h1, h2⟩ := optionTraverse_some f l (fun x hx => h x (by simp [hx]))
      refine ⟨b :: l2, by simp [optionTraverse, hb, h1], ?_⟩
      intro x hx y hy
      rcases List.mem_cons.mp hx with rfl | hx
      · rw [hb] at hy
        simp at hy
        simp [hy]
      · exact List.mem_cons_of_mem _ (h2 x hx y hy)

/-! ### Characterizations of states reached by sequences of appends -/

theorem foldl_inMemory_getList_frame (k : PyStr) :
    ∀ (ops : List (PyStr × PyVal)), k ∉ ops.map Prod.fst → ∀ s : InMemoryStorage,
      inMemoryGetList (ops.foldl (fun s op => inMemoryAppendVal s op.1 op.2) s) k
        = inMemoryGetList s k
  | [], _, s => rfl
  | (j, v) :: ops, h, s => by
      simp only [List.map_cons, List.mem_cons, not_or] at h
      rw [List.foldl_cons, foldl_inMemory_getList_frame k ops h.2]
      simp [inMemoryGetList, inMemoryAppendVal,
        assocFind_assocUpdate_other s.storage j k v h.1]

theorem foldl_inMemory_keys (x : PyStr) :
    ∀ (ops : List (PyStr × PyVal)) (s : InMemoryStorage),
      x ∈ inMemoryKeys (ops.foldl (fun s op => inMemoryAppendVal s op.1 op.2) s)
        ↔ x ∈ inMemoryKeys s ∨ x ∈ ops.map Prod.fst
  | [], s => by simp
  | (j, v) :: ops, s => by
      rw [List.foldl_cons, foldl_inMemory_keys x ops]
      simp only [inMemoryKeys, inMemoryAppendVal, mem_map_fst_assocUpdate, List.map_cons,
        List.mem_cons]
      tauto

theorem foldl_redis_members_frame (hIndex : Nat) (fk : PyStr) :
    ∀ (ops : List (PyStr × PyVal)), (∀ op ∈ ops, hTag hIndex ++ op.1 ≠ fk) →
      ∀ s : RedisServer,
        serverMembers (ops.foldl (fun s op => redisAppendVal hIndex s op.1 op.2) s) fk
          = serverMembers s fk
  | [], _, s => rfl
  | (j, v) :: ops, h, s => by
      rw [List.foldl_cons, foldl_redis_members_frame hIndex fk ops
        (fun op hop => h op (by simp [hop]))]
      have hne : fk ≠ hTag hIndex ++ j := fun hh => h (j, v) (by simp) hh.symm
      simp [serverMembers, redisAppendVal, serverSadd_eq_assocUpdate,
        assocFind_assocUpdate_other _ _ _ _ hne]

theorem foldl_redis_data_keys (hIndex : Nat) (x : PyStr) :
    ∀ (ops : List (PyStr × PyVal)) (s : RedisServer),
      x ∈ (ops.foldl (fun s op => redisAppendVal hIndex s op.1 op.2) s).data.map Prod.fst
        ↔ x ∈ s.data.map Prod.fst ∨ ∃ j, j ∈ ops.map Prod.fst ∧ x = hTag hIndex ++ j
  | [], s => by simp
  | (j, v) :: ops, s => by
      rw [List.foldl_cons, foldl_redis_data_keys hIndex x ops]
      simp only [redisAppendVal, serverSadd_eq_assocUpdate, mem_map_fst_assocUpdate,
        List.map_cons, List.mem_cons]
      constructor
      · rintro ((hx | rfl) | ⟨j2, hj2, rfl⟩)
        · exact Or.inl hx
        · exact Or.inr ⟨j, Or.inl rfl, rfl⟩
        · exact Or.inr ⟨j2, Or.inr hj2, rfl⟩
      · rintro (hx | ⟨j2, (rfl | hj2), rfl⟩)
        · exact Or.inl (Or.inl hx)
        · exact Or.inl (Or.inr rfl)
        · exact Or.inr ⟨j2, hj2, rfl⟩

theorem members_redisAppendVal_self (hIndex : Nat) (s : RedisServer) (k : PyStr) (v : PyVal) :
    serverMembers (redisAppendVal hIndex s k v) (hTag hIndex ++ k)
      = setInsert (serverMembers s (hTag hIndex ++ k)) (jsonDegrade v) := by
  simp [serverMembers, redisAppendVal, serverSadd_eq_assocUpdate,
    assocFind_assocUpdate_self]

theorem sqliteAppendVal_rows (sk : SerKind) (t : SqliteTable) (k : PyStr) (v : PyVal) :
    (sqliteAppendVal sk t k v).rows = t.rows ∨
      (sqliteAppendVal sk t k v).rows = t.rows ++ [⟨k, serializeVal sk v⟩] := by
  by_cases h : t.rows.any (fun r => r.key == k && r.value == serializeVal sk v) = true <;>
    simp [sqliteAppendVal, h]

theorem exists_row_sqliteAppendVal (sk : SerKind) (t : SqliteTable) (k : PyStr) (v : PyVal) :
    ∃ r ∈ (sqliteAppendVal sk t k v).rows, r.key = k ∧ r.value = serializeVal sk v := by
  by_cases h : t.rows.any (fun r => r.key == k && r.value == serializeVal sk v) = true
  · obtain ⟨r, hr, hkv⟩ := List.any_eq_true.mp h
    simp only [Bool.and_eq_true, beq_iff_eq] at hkv
    exact ⟨r, by simp [sqliteAppendVal, h, hr], hkv⟩
  · have hrows : (sqliteAppendVal sk t k v).rows = t.rows ++ [⟨k, serializeVal sk v⟩] := by
      simp [sqliteAppendVal, h]
    rw [hrows]
    exact ⟨⟨k, serializeVal sk v⟩, by simp, rfl, rfl⟩

theorem sqliteAppendVal_idem (sk : SerKind) (t : SqliteTable) (k : PyStr) (v : PyVal) :
    sqliteAppendVal sk (sqliteAppendVal sk t k v) k v = sqliteAppendVal sk t k v := by
  by_cases h : (t.rows.any fun r => r.key == k && r.value == serializeVal sk v) = true
  · simp [sqliteAppendVal, h]
  · have hany : ((t.rows ++ [(⟨k, serializeVal sk v⟩ : SqliteRow)]).any
        fun r => r.key == k && r.value == serializeVal sk v) = true := by simp
    simp [sqliteAppendVal, h, hany]

theorem sqliteLevelAppendVal_idem (sk : SerKind) (t : SqliteLevelTable) (k : PyStr) (v : PyVal) :
    sqliteLevelAppendVal sk (sqliteLevelAppendVal sk t k v) k v = sqliteLevelAppendVal sk t k v := by
  by_cases h : (t.rows.any fun r =>
      r.keyHigh == getLevelKeyValue k .high && r.value == serializeVal sk v) = true
  · simp [sqliteLevelAppendVal, h]
  · have hany : (((⟨t.rows ++ [⟨getLevelKeyValue k .high, getLevelKeyValue k .medium,
        getLevelKeyValue k .low, serializeVal sk v⟩]⟩ : SqliteLevelTable)).rows.any
          fun r => r.keyHigh == getLevelKeyValue k .high && r.value == serializeVal sk v) = true := by
      simp
    simp [sqliteLevelAppendVal, h, hany]

theorem foldl_sqlite_rows_keys (sk : SerKind) :
    ∀ (ops : List (PyStr × PyVal)) (t : SqliteTable),
      ∀ r ∈ (ops.foldl (fun t op => sqliteAppendVal sk t op.1 op.2) t).rows,
        r ∈ t.rows ∨ r.key ∈ ops.map Prod.fst
  | [], t, r, hr => Or.inl hr
  | (j, v) :: ops, t, r, hr => by
      rw [List.foldl_cons] at hr
      rcases foldl_sqlite_rows_keys sk ops (sqliteAppendVal sk t j v) r hr with h | h
      · rcases sqliteAppendVal_rows sk t j v with he | he <;> rw [he] at h
        · exact Or.inl h
        · rcases List.mem_append.mp h with h | h
          · exact Or.inl h
          · simp at h
            subst h
            simp
      · simp [h]

/-! ### Stored-value shapes and decoding lemmas -/

/-- Lists whose entries are all numbers: the payload of a feature
vector. -/
def isIntList : List PyVal → Bool
  | [] => true
  | .int _ :: xs => isIntList xs
  | _ => false

/-- Values that are feature vectors: a list or tuple of numbers. -/
def isVec : PyVal → Bool
  | .list l => isIntList l
  | .tup l => isIntList l
  | _ => false

/-- The serializable values the spec stores: a feature vector, or a pair
of a feature vector and an arbitrary label. -/
def isVecOrPair (v : PyVal) : Bool :=
  isVec v ||
    match v with
    | .list [a, _] => isVec a
    | .tup [a, _] => isVec a
    | _ => false

/-- Well-formedness of a Redis server state: every stored member decodes
without raising, which holds for every state the backend itself
produced. -/
def redisWF (s : RedisServer) : Bool :=
  s.data.all fun kv => kv.2.all fun w => (redisDecodeElem w).isSome

/-- Well-formedness of a SQLite table: every stored value deserializes
to something `tuple(...)` accepts, which holds for every state the
backend itself produced. -/
def sqliteWF (t : SqliteTable) : Bool :=
  t.rows.all fun r => (tupleOfVal r.value).isSome

theorem isIntList_degradeList : ∀ l, isIntList l = true → jsonDegradeList l = l
  | [], _ => rfl
  | x :: xs, h => by
      cases x with
      | int n =>
          have hxs : isIntList xs = true := by simpa [isIntList] using h
          simp [jsonDegradeList, jsonDegrade, isIntList_degradeList xs hxs]
      | str s => simp [isIntList] at h
      | list l => simp [isIntList] at h
      | tup l => simp [isIntList] at h

theorem contentEq_refl (v : PyVal) : contentEq v v = true := by
  simp [contentEq]

theorem isVecOrPair_shape (v : PyVal) (hv : isVecOrPair v = true) :
    ∃ l, v = .list l ∨ v = .tup l := by
  cases v with
  | int n => simp [isVecOrPair, isVec] at hv
  | str s => simp [isVecOrPair, isVec] at hv
  | list l => exact ⟨l, Or.inl rfl⟩
  | tup l => exact ⟨l, Or.inr rfl⟩

theorem isVecOrPair_tup_eq_list (l : List PyVal) :
    isVecOrPair (PyVal.tup l) = isVecOrPair (PyVal.list l) := by
  rcases l with _ | ⟨a, _ | ⟨b, _ | ⟨c, rest⟩⟩⟩ <;> simp [isVecOrPair, isVec]

theorem isVecOrPair_list_cases (l : List PyVal)
    (hv : isVecOrPair (PyVal.list l) = true) :
    isIntList l = true ∨
      ∃ a b la, l = [a, b] ∧ (a = .list la ∨ a = .tup la) ∧ isIntList la = true := by
  by_cases hil : isIntList l = true
  · exact Or.inl hil
  · right
    rcases l with _ | ⟨a, _ | ⟨b, _ | ⟨c, rest⟩⟩⟩
    · exact absurd rfl hil
    · simp [isVecOrPair, isVec, hil] at hv
    · have ha : isVec a = true := by simpa [isVecOrPair, isVec, hil] using hv
      cases a with
      | int n => simp [isVec] at ha
      | str s => simp [isVec] at ha
      | list la => exact ⟨.list la, b, la, rfl, Or.inl rfl, by simpa [isVec] using ha⟩
      | tup la => exact ⟨.tup la, b, la, rfl, Or.inr rfl, by simpa [isVec] using ha⟩
    · simp [isVecOrPair, isVec, hil] at hv

theorem decode_degraded_list (l : List PyVal)
    (h : isIntList l = true ∨
      ∃ a b la, l = [a, b] ∧ (a = .list la ∨ a = .tup la) ∧ isIntList la = true) :
    ∃ w, redisDecodeElem (.list (jsonDegradeList l)) = some w ∧
      jsonDegrade w = .list (jsonDegradeList l) := by
  rcases h with hil | ⟨a, b, la, rfl, ha, hla⟩
  · have hdl : jsonDegradeList l = l := isIntList_degradeList l hil
    rw [hdl]
    rcases l with _ | ⟨a, _ | ⟨b, _ | ⟨c, rest⟩⟩⟩
    · exact ⟨.tup [], rfl, rfl⟩
    · exact ⟨.tup [a], rfl, by simp [jsonDegrade, hdl]⟩
    · cases a with
      | int n => exact ⟨.tup [.int n, b], rfl, by simp [jsonDegrade, hdl]⟩
      | str s => simp [isIntList] at hil
      | list la => simp [isIntList] at hil
      | tup la => simp [isIntList] at hil
    · exact ⟨.tup (a :: b :: c :: rest), rfl, by simp [jsonDegrade, hdl]⟩
  · have hda : jsonDegrade a = .list la := by
      rcases ha with rfl | rfl <;> simp [jsonDegrade, isIntList_degradeList la hla]
    refine ⟨.tup [.tup la, jsonDegrade b], ?_, ?_⟩
    · simp [jsonDegradeList, hda, redisDecodeElem]
    · simp [jsonDegrade, jsonDegradeList, isIntList_degradeList la hla, hda,
        jsonDegrade_idem b]

theorem redisDecodeElem_degrade (v : PyVal) (hv : isVecOrPair v = true) :
    ∃ w, redisDecodeElem (jsonDegrade v) = some w ∧ contentEq w v = true := by
  obtain ⟨l, hl⟩ := isVecOrPair_shape v hv
  have hcases : isIntList l = true ∨
      ∃ a b la, l = [a, b] ∧ (a = .list la ∨ a = .tup la) ∧ isIntList la = true := by
    apply isVecOrPair_list_cases l
    rcases hl with rfl | rfl
    · exact hv
    · rw [← isVecOrPair_tup_eq_list]
      exact hv
  obtain ⟨w, hw1, hw2⟩ := decode_degraded_list l hcases
  have hdv : jsonDegrade v = .list (jsonDegradeList l) := by
    rcases hl with rfl | rfl <;> rfl
  refine ⟨w, by rw [hdv]; exact hw1, ?_⟩
  simp [contentEq, hw2, hdv]

theorem tupleOfVal_serialize (sk : SerKind) (v : PyVal) (hv : isVecOrPair v = true) :
    ∃ w, tupleOfVal (serializeVal sk v) = some w ∧ contentEq w v = true := by
  obtain ⟨l, hl⟩ := isVecOrPair_shape v hv
  cases sk with
  | pickle =>
      refine ⟨.tup l, ?_, ?_⟩
      · rcases hl with rfl | rfl <;> rfl
      · rcases hl with rfl | rfl <;> simp [contentEq, jsonDegrade]
  | json =>
      have hdv : jsonDegrade v = .list (jsonDegradeList l) := by
        rcases hl with rfl | rfl <;> rfl
      refine ⟨.tup (jsonDegradeList l), ?_, ?_⟩
      · simp [serializeVal, hdv, tupleOfVal]
      · simp [contentEq, jsonDegrade, hdv, jsonDegradeList_idem l]

/-! ### The claims -/

/-- C1: for the relational backend, the level-derived key of a bucket key
of length L is: at High level the key unmodified; at Medium level the
interleave (even-indexed characters followed by odd-indexed characters)
truncated to its first `int(L * 0.75) = L * 3 / 4` characters; at Low
level the same interleave truncated to `int(L * 0.5) = L / 2`
characters. -/
theorem claim1_level_key_derivation (key : PyStr) :
    getLevelKeyValue key .high = key ∧
    getLevelKeyValue key .medium
      = (charsAtEvenPositions key ++ charsAtOddPositions key).take (key.length * 3 / 4) ∧
    getLevelKeyValue key .low
      = (charsAtEvenPositions key ++ charsAtOddPositions key).take (key.length / 2) := by
  have hmix : mixedKey key = charsAtEvenPositions key ++ charsAtOddPositions key := by
    rw [mixedKey, sliceStep2_eq_evens, sliceStep2_tail_eq_odds]
  refine ⟨?_, ?_, ?_⟩
  · show key.take (key.length * 4 / 4) = key
    have h4 : key.length * 4 / 4 = key.length := by omega
    rw [h4, List.take_length]
  · show (mixedKey key).take (key.length * 3 / 4) = _
    rw [hmix]
  · show (mixedKey key).take (key.length * 2 / 4) = _
    have h2 : key.length * 2 / 4 = key.length / 2 := by omega
    rw [hmix, h2]

/-- C2: for every backend (in-memory, Redis, SQLite with and without
levels), appending the same value under the same key twice leaves the
state, and hence the `get_list` result, identical to appending it once:
the stored bucket does not grow on a repeated identical insertion. -/
theorem claim2_idempotent_append (key : PyStr) (v : PyVal) (s : InMemoryStorage)
    (hIndex : Nat) (rs : RedisServer) (sk : SerKind) (t : SqliteTable)
    (tl : SqliteLevelTable) (lv : Level) :
    inMemoryAppendVal (inMemoryAppendVal s key v) key v = inMemoryAppendVal s key v ∧
    redisAppendVal hIndex (redisAppendVal hIndex rs key v) key v
      = redisAppendVal hIndex rs key v ∧
    sqliteAppendVal sk (sqliteAppendVal sk t key v) key v = sqliteAppendVal sk t key v ∧
    sqliteLevelAppendVal sk (sqliteLevelAppendVal sk tl key v) key v
      = sqliteLevelAppendVal sk tl key v ∧
    inMemoryGetList (inMemoryAppendVal (inMemoryAppendVal s key v) key v) key
      = inMemoryGetList (inMemoryAppendVal s key v) key ∧
    redisGetList hIndex (redisAppendVal hIndex (redisAppendVal hIndex rs key v) key v) key
      = redisGetList hIndex (redisAppendVal hIndex rs key v) key ∧
    sqliteGetList (sqliteAppendVal sk (sqliteAppendVal sk t key v) key v) key
      = sqliteGetList (sqliteAppendVal sk t key v) key ∧
    sqliteLevelGetList (sqliteLevelAppendVal sk (sqliteLevelAppendVal sk tl key v) key v) key lv
      = sqliteLevelGetList (sqliteLevelAppendVal sk tl key v) key lv := by
  have h1 : inMemoryAppendVal (inMemoryAppendVal s key v) key v = inMemoryAppendVal s key v := by
    simp [inMemoryAppendVal, assocUpdate_idem]
  have h2 : redisAppendVal hIndex (redisAppendVal hIndex rs key v) key v
      = redisAppendVal hIndex rs key v := by
    simp [redisAppendVal, serverSadd_eq_assocUpdate, assocUpdate_idem]
  have h3 := sqliteAppendVal_idem sk t key v
  have h4 := sqliteLevelAppendVal_idem sk tl key v
  exact ⟨h1, h2, h3, h4, by rw [h1], by rw [h2], by rw [h3], by rw [h4]⟩

/-- C4: the claim fails for the SQLite backend: its reshaping loop in
`get_list` iterates over the raw rows instead of the deserialized
values, so a two-element payload whose first element is a list is
returned with that first element still a list, not as a
(vector-as-tuple, label) pair.  The Redis backend does reshape.  The
failing input: the pair ([1, 2, 3], x) stored under key 0 with the
pickle serializer. -/
theorem claim4_sqlite_shape_not_reconstructed :
    sqliteGetList
        (runSqlite .pickle [([48], .tup [.list [.int 1, .int 2, .int 3], .str [120]])]) [48]
      = some [.tup [.list [.int 1, .int 2, .int 3], .str [120]]] ∧
    sqliteGetList
        (runSqlite .pickle [([48], .tup [.list [.int 1, .int 2, .int 3], .str [120]])]) [48]
      ≠ some [.tup [.tup [.int 1, .int 2, .int 3], .str [120]]] ∧
    redisGetList 0 (runRedis 0 [([48], .tup [.list [.int 1, .int 2, .int 3], .str [120]])]) [48]
      = some [.tup [.tup [.int 1, .int 2, .int 3], .str [120]]] := by
  decide

/-- C7: the claim fails for the SQLite backend: the namespaced table name
is computed only for the CREATE statement (where a nonzero index even
yields a dotted, schema-qualified name), while every data statement uses
the base table name, so two instances with different index identifiers
over one database read and write the very same table.  Evaluated at the
failing input: instance 0 appends a value under key 0, instance 2 then
reads it back. -/
theorem claim7_sqlite_shared_table :
    sqliteCreateTableName [108, 115, 104, 97, 115, 104] 2
      ≠ sqliteDmlTableName [108, 115, 104, 97, 115, 104] 2 ∧
    dbGetList
      (dbAppendVal
        (dbCreateTable
          (dbCreateTable ⟨[]⟩ (sqliteCreateTableName [108, 115, 104, 97, 115, 104] 0))
          (sqliteCreateTableName [108, 115, 104, 97, 115, 104] 2))
        [108, 115, 104, 97, 115, 104] 0 .pickle [48] (.tup [.int 7]))
      [108, 115, 104, 97, 115, 104] 2 [48] = some [.tup [.int 7]] := by
  decide

/-- C8: construction-time errors: the factory raises `ValueError` when
the configuration names none of the recognized backends, and
constructing the Redis backend raises `ImportError` when redis-py is
unavailable; in both cases no backend instance is returned. -/
theorem claim8_construction_errors (cfgKeys : List PyStr) (redisAvailable : Bool)
    (h1 : dictKey ∉ cfgKeys) :
    (redisKey ∉ cfgKeys → sqliteKey ∉ cfgKeys →
      storageFactory cfgKeys redisAvailable = .error .valueError) ∧
    (redisKey ∈ cfgKeys → storageFactory cfgKeys false = .error .importError) := by
  constructor
  · intro h2 h3
    simp [storageFactory, h1, h2, h3]
  · intro h2
    simp [storageFactory, h1, h2]

theorem claim8_construction_errors_witness :
    storageFactory [[120]] true = .error .valueError ∧
    storageFactory [redisKey] false = .error .importError :=
  ⟨(claim8_construction_errors [[120]] true (by decide)).1 (by decide) (by decide),
   (claim8_construction_errors [redisKey] false (by decide)).2 (by decide)⟩

/-- C9: the Low-level derived key is a prefix of the Medium-level derived
key, both are prefixes of the interleaved rewrite of the key, and any
two keys with equal Medium-level derived keys also have equal Low-level
derived keys. -/
theorem claim9_level_key_prefix_chain (k k2 : PyStr) :
    (∃ t, getLevelKeyValue k .medium = getLevelKeyValue k .low ++ t) ∧
    (∃ t, mixedKey k = getLevelKeyValue k .medium ++ t) ∧
    (∃ t, mixedKey k = getLevelKeyValue k .low ++ t) ∧
    (getLevelKeyValue k .medium = getLevelKeyValue k2 .medium →
      getLevelKeyValue k .low = getLevelKeyValue k2 .low) := by
  have hmed : ∀ j : PyStr, getLevelKeyValue j .medium = (mixedKey j).take (j.length * 3 / 4) :=
    fun j => rfl
  have hlow : ∀ j : PyStr, getLevelKeyValue j .low = (mixedKey j).take (j.length * 2 / 4) :=
    fun j => rfl
  have hlowmed : ∀ j : PyStr,
      getLevelKeyValue j .low = (getLevelKeyValue j .medium).take (j.length * 2 / 4) := by
    intro j
    rw [hmed, hlow, List.take_take, Nat.min_eq_left (by omega)]
  have hmedlen : ∀ j : PyStr, (getLevelKeyValue j .medium).length = j.length * 3 / 4 := by
    intro j
    rw [hmed, List.length_take, mixedKey_length, Nat.min_eq_left (by omega)]
  refine ⟨?_, ?_, ?_, ?_⟩
  · exact ⟨(getLevelKeyValue k .medium).drop (k.length * 2 / 4),
      by rw [hlowmed k]; exact (List.take_append_drop _ _).symm⟩
  · exact ⟨(mixedKey k).drop (k.length * 3 / 4),
      by rw [hmed k]; exact (List.take_append_drop _ _).symm⟩
  · exact ⟨(mixedKey k).drop (k.length * 2 / 4),
      by rw [hlow k]; exact (List.take_append_drop _ _).symm⟩
  · intro h
    have hlen : k.length * 3 / 4 = k2.length * 3 / 4 := by
      rw [← hmedlen k, ← hmedlen k2, h]
    have hhalf : k.length / 2 = k2.length / 2 :=
      div_three_quarters_eq _ _ (by omega)
    have e1 : k.length * 2 / 4 = k.length / 2 := by omega
    have e2 : k2.length * 2 / 4 = k2.length / 2 := by omega
    rw [hlowmed k, hlowmed k2, h, e1, e2, hhalf]

theorem claim9_level_key_prefix_chain_witness :
    getLevelKeyValue [48, 49, 48, 49] .low = getLevelKeyValue [48, 49, 48, 49, 49] .low :=
  (claim9_level_key_prefix_chain [48, 49, 48, 49] [48, 49, 48, 49, 49]).2.2.2 (by decide)

/-- C10: in the SQLite backend with levels disabled, appending under one
bit-string key leaves the `get_list` result of any other bit-string key
unchanged: on wildcard-free keys the LIKE filter is an exact key
match. -/
theorem claim10_bitstring_append_frame (t : SqliteTable) (sk : SerKind) (k k2 : PyStr)
    (v : PyVal) (hk : isBitStr k = true) (hk2 : isBitStr k2 = true) (hne : k ≠ k2) :
    sqliteGetList (sqliteAppendVal sk t k v) k2 = sqliteGetList t k2 := by
  rcases sqliteAppendVal_rows sk t k v with h | h
  · simp only [sqliteGetList, h]
  · have hlk : likeMatch k2 k = false := by
      rw [likeMatch_bit k2 k hk2]
      exact beq_eq_false_iff_ne.mpr (Ne.symm hne)
    simp only [sqliteGetList, h, List.filter_append, List.map_append]
    simp [hlk]

theorem claim10_bitstring_append_frame_witness :
    sqliteGetList (sqliteAppendVal .pickle ⟨[]⟩ [48] (.tup [.int 1])) [49]
      = sqliteGetList ⟨[]⟩ [49] :=
  claim10_bitstring_append_frame ⟨[]⟩ .pickle [48] [49] (.tup [.int 1])
    (by decide) (by decide) (by decide)

/-- C5, counterexample: the key consisting of the single character %
(code 37) was never appended to, yet `get_list` of the SQLite backend
returns the value stored under key 0, because the read filter uses the
SQL LIKE pattern matcher. -/
theorem claim5_counterexample :
    ([37] : PyStr) ∉ ([([48], PyVal.tup [.int 1])].map Prod.fst) ∧
    sqliteGetList (runSqlite .pickle [([48], PyVal.tup [.int 1])]) [37]
      = some [.tup [.int 1]] := by
  decide

/-- C6, counterexample: after appending under the bucket key a.b (codes
[97, 46, 98]), `keys()` of the Redis backend returns the truncated key a
(code [97]) instead of the original bucket key, because the prefix strip
takes `split('.')[1]`. -/
theorem claim6_counterexample :
    redisKeys 0 (runRedis 0 [([97, 46, 98], PyVal.tup [.int 1])]) = [[97]] ∧
    ([97, 46, 98] : PyStr) ∉ redisKeys 0 (runRedis 0 [([97, 46, 98], PyVal.tup [.int 1])]) := by
  decide

theorem mem_dedupAux : ∀ (l seen : List PyStr) (x : PyStr),
    x ∈ dedupAux seen l ↔ x ∈ l ∧ x ∉ seen
  | [], seen, x => by simp [dedupAux]
  | k :: rest, seen, x => by
      by_cases hk : k ∈ seen
      · rw [dedupAux, if_pos hk, mem_dedupAux rest seen x]
        simp only [List.mem_cons]
        constructor
        · rintro ⟨hx, hns⟩
          exact ⟨Or.inr hx, hns⟩
        · rintro ⟨rfl | hx, hns⟩
          · exact absurd hk hns
          · exact ⟨hx, hns⟩
      · rw [dedupAux, if_neg hk]
        simp only [List.mem_cons, mem_dedupAux rest (k :: seen) x]
        constructor
        · rintro (rfl | ⟨hx, hns⟩)
          · exact ⟨Or.inl rfl, hk⟩
          · exact ⟨Or.inr hx, fun hs => hns (Or.inr hs)⟩
        · rintro ⟨rfl | hx, hns⟩
          · exact Or.inl rfl
          · by_cases hxk : x = k
            · exact Or.inl hxk
            · exact Or.inr ⟨hx, fun hor => hor.elim hxk hns⟩

theorem isPrefixOf_append_self : ∀ a b : PyStr, List.isPrefixOf a (a ++ b) = true
  | [], _ => by simp [List.isPrefixOf]
  | x :: a, b => by simp [List.isPrefixOf, isPrefixOf_append_self a b]

theorem isBitStr_no_dot (s : PyStr) (hs : isBitStr s = true) : 46 ∈ s → False := by
  intro hm
  simp only [isBitStr, List.all_eq_true] at hs
  have := hs 46 hm
  simp at this

/-- C3: for every backend, a vector or (vector, label) pair appended
under a key is found, content-equal (equal vector entries and equal
label), in a subsequent `get_list` of that key, from any well-formed
prior state. -/
theorem claim3_roundtrip_fidelity (k : PyStr) (v : PyVal) (hv : isVecOrPair v = true)
    (s : InMemoryStorage) (hIndex : Nat) (rs : RedisServer) (hrs : redisWF rs = true)
    (sk : SerKind) (t : SqliteTable) (ht : sqliteWF t = true) :
    (∃ w ∈ inMemoryGetList (inMemoryAppendVal s k v) k, contentEq w v = true) ∧
    (∃ l, redisGetList hIndex (redisAppendVal hIndex rs k v) k = some l ∧
      ∃ w ∈ l, contentEq w v = true) ∧
    (∃ l, sqliteGetList (sqliteAppendVal sk t k v) k = some l ∧
      ∃ w ∈ l, contentEq w v = true) := by
  refine ⟨?_, ?_, ?_⟩
  · refine ⟨v, ?_, contentEq_refl v⟩
    simp only [inMemoryGetList, inMemoryAppendVal, assocFind_assocUpdate_self, Option.getD_some]
    exact setInsert_mem _ _
  · obtain ⟨w, hw1, hw2⟩ := redisDecodeElem_degrade v hv
    have hmem := members_redisAppendVal_self hIndex rs k v
    have hall : ∀ x ∈ serverMembers (redisAppendVal hIndex rs k v) (hTag hIndex ++ k),
        (redisDecodeElem x).isSome = true := by
      intro x hx
      rw [hmem, mem_setInsert_iff] at hx
      rcases hx with hx | rfl
      · simp only [serverMembers] at hx
        cases hfind : assocFind rs.data (hTag hIndex ++ k) with
        | none => rw [hfind] at hx; simp at hx
        | some b =>
            rw [hfind] at hx
            simp only [Option.getD_some] at hx
            have hb := assocFind_mem rs.data _ b hfind
            simp only [redisWF, List.all_eq_true] at hrs
            exact hrs _ hb x hx
      · simp [hw1]
    obtain ⟨l, hl1, hl2⟩ := optionTraverse_some redisDecodeElem _ hall
    refine ⟨l, hl1, w, ?_, hw2⟩
    apply hl2 (jsonDegrade v) _ w hw1
    rw [hmem]
    exact setInsert_mem _ _
  · obtain ⟨w, hw1, hw2⟩ := tupleOfVal_serialize sk v hv
    obtain ⟨r0, hr0, hr0k, hr0v⟩ := exists_row_sqliteAppendVal sk t k v
    have hallrows : ∀ r ∈ (sqliteAppendVal sk t k v).rows, (tupleOfVal r.value).isSome = true := by
      intro r hr
      rcases sqliteAppendVal_rows sk t k v with he | he <;> rw [he] at hr
      · exact (List.all_eq_true.mp ht) r hr
      · rcases List.mem_append.mp hr with hr | hr
        · exact (List.all_eq_true.mp ht) r hr
        · simp only [List.mem_singleton] at hr
          subst hr
          simp [hw1]
    have hall : ∀ x ∈ ((sqliteAppendVal sk t k v).rows.filter
        fun r => likeMatch k r.key).map SqliteRow.value, (tupleOfVal x).isSome = true := by
      intro x hx
      obtain ⟨r, hr, rfl⟩ := List.mem_map.mp hx
      exact hallrows r (List.mem_filter.mp hr).1
    obtain ⟨l, hl1, hl2⟩ := optionTraverse_some tupleOfVal _ hall
    refine ⟨l, hl1, w, ?_, hw2⟩
    apply hl2 (serializeVal sk v) _ w hw1
    apply List.mem_map.mpr
    refine ⟨r0, List.mem_filter.mpr ⟨hr0, ?_⟩, hr0v⟩
    rw [hr0k]
    simp [likeMatch_self k]

theorem claim3_roundtrip_fidelity_witness :
    (∃ w ∈ inMemoryGetList (inMemoryAppendVal ⟨[]⟩ [48] (.tup [.int 1])) [48],
      contentEq w (.tup [.int 1]) = true) ∧
    (∃ l, redisGetList 0 (redisAppendVal 0 ⟨[]⟩ [48] (.tup [.int 1])) [48] = some l ∧
      ∃ w ∈ l, contentEq w (.tup [.int 1]) = true) ∧
    (∃ l, sqliteGetList (sqliteAppendVal .pickle ⟨[]⟩ [48] (.tup [.int 1])) [48] = some l ∧
      ∃ w ∈ l, contentEq w (.tup [.int 1]) = true) :=
  claim3_roundtrip_fidelity [48] (.tup [.int 1]) (by decide) ⟨[]⟩ 0 ⟨[]⟩ (by decide)
    .pickle ⟨[]⟩ (by decide)

/-- C5 (amended): restricted to bit-string keys, the form the hashing
stage produces (the restriction is forced because the SQLite read path
is a LIKE pattern match, so a wildcard query key matches foreign
buckets, and because the Redis key strip truncates at dots): for any
key never appended to, every backend returns an empty sequence from
`get_list` and omits the key from `keys()`. -/
theorem claim5_empty_bucket (ops : List (PyStr × PyVal)) (k : PyStr) (hIndex : Nat)
    (sk : SerKind)
    (hops : ((ops.map Prod.fst).all isBitStr) = true)
    (hk : isBitStr k = true)
    (hnk : k ∉ ops.map Prod.fst) :
    inMemoryGetList (runInMemory ops) k = [] ∧
    k ∉ inMemoryKeys (runInMemory ops) ∧
    redisGetList hIndex (runRedis hIndex ops) k = some [] ∧
    k ∉ redisKeys hIndex (runRedis hIndex ops) ∧
    sqliteGetList (runSqlite sk ops) k = some [] ∧
    k ∉ sqliteKeys (runSqlite sk ops) := by
  have hopsbit : ∀ j ∈ ops.map Prod.fst, isBitStr j = true := List.all_eq_true.mp hops
  refine ⟨?_, ?_, ?_, ?_, ?_, ?_⟩
  · rw [runInMemory, foldl_inMemory_getList_frame k ops hnk ⟨[]⟩]
    rfl
  · rw [runInMemory]
    intro hmem
    rcases (foldl_inMemory_keys k ops ⟨[]⟩).mp hmem with h | h
    · simp [inMemoryKeys] at h
    · exact hnk h
  · rw [runRedis, redisGetList,
      foldl_redis_members_frame hIndex (hTag hIndex ++ k) ops ?_ ⟨[]⟩]
    · rfl
    · intro op hop he
      exact hnk (by
        have : op.1 = k := List.append_cancel_left he
        rw [← this]
        exact List.mem_map.mpr ⟨op, hop, rfl⟩)
  · intro hmem
    obtain ⟨fk, hfk, hstrip⟩ := List.mem_map.mp hmem
    have hfk2 := (List.mem_filter.mp hfk).1
    rcases (foldl_redis_data_keys hIndex fk ops ⟨[]⟩).mp hfk2 with h | ⟨j, hj, rfl⟩
    · simp at h
    · have hjb := hopsbit j hj
      rw [stripKey_hTag_append hIndex j (isBitStr_no_dot j hjb)] at hstrip
      exact hnk (hstrip ▸ hj)
  · rw [runSqlite, sqliteGetList]
    have hfil : ((ops.foldl (fun t op => sqliteAppendVal sk t op.1 op.2) ⟨[]⟩).rows.filter
        fun r => likeMatch k r.key) = [] := by
      apply List.filter_eq_nil_iff.mpr
      intro r hr
      rcases foldl_sqlite_rows_keys sk ops ⟨[]⟩ r hr with h | h
      · simp at h
      · have : (k == r.key) = false :=
          beq_eq_false_iff_ne.mpr (fun he => hnk (he ▸ h))
        simp [likeMatch_bit k r.key hk, this]
    rw [hfil]
    rfl
  · intro hmem
    rw [runSqlite, sqliteKeys] at hmem
    obtain ⟨hmem2, -⟩ := (mem_dedupAux _ [] k).mp hmem
    obtain ⟨r, hr, hrk⟩ := List.mem_map.mp hmem2
    rcases foldl_sqlite_rows_keys sk ops ⟨[]⟩ r hr with h | h
    · simp at h
    · exact hnk (hrk ▸ h)

theorem claim5_empty_bucket_witness :
    inMemoryGetList (runInMemory [([48], PyVal.tup [.int 1])]) [49] = [] ∧
    [49] ∉ inMemoryKeys (runInMemory [([48], PyVal.tup [.int 1])]) ∧
    redisGetList 0 (runRedis 0 [([48], PyVal.tup [.int 1])]) [49] = some [] ∧
    [49] ∉ redisKeys 0 (runRedis 0 [([48], PyVal.tup [.int 1])]) ∧
    sqliteGetList (runSqlite .pickle [([48], PyVal.tup [.int 1])]) [49] = some [] ∧
    [49] ∉ sqliteKeys (runSqlite .pickle [([48], PyVal.tup [.int 1])]) :=
  claim5_empty_bucket [([48], PyVal.tup [.int 1])] [49] 0 .pickle
    (by decide) (by decide) (by decide)

/-- C6 (amended): every key the Redis backend stores on the server
carries the zero-padded namespace tag of its index as a prefix, and for
bucket keys containing no dot (in particular all bit-string keys),
`keys()` returns exactly the bucket keys that were appended, with the
tag stripped.  (For a bucket key containing a dot, `split('.')[1]`
truncates it at the dot, as the counterexample shows.) -/
theorem claim6_redis_namespacing (hIndex : Nat) (ops : List (PyStr × PyVal))
    (hnd : ((ops.map Prod.fst).all fun j => !(j.contains 46)) = true) :
    (∀ fk ∈ (runRedis hIndex ops).data.map Prod.fst, List.isPrefixOf (hTag hIndex) fk = true) ∧
    (∀ j, j ∈ redisKeys hIndex (runRedis hIndex ops) ↔ j ∈ ops.map Prod.fst) := by
  have hnodot : ∀ j ∈ ops.map Prod.fst, 46 ∈ j → False := by
    intro j hj hdot
    have := (List.all_eq_true.mp hnd) j hj
    simp at this
    exact this.elim (by simpa using hdot)
  constructor
  · intro fk hfk
    rcases (foldl_redis_data_keys hIndex fk ops ⟨[]⟩).mp hfk with h | ⟨j, hj, rfl⟩
    · simp at h
    · exact isPrefixOf_append_self _ _
  · intro j
    constructor
    · intro hmem
      obtain ⟨fk, hfk, hstrip⟩ := List.mem_map.mp hmem
      have hfk2 := (List.mem_filter.mp hfk).1
      rcases (foldl_redis_data_keys hIndex fk ops ⟨[]⟩).mp hfk2 with h | ⟨j0, hj0, rfl⟩
      · simp at h
      · rw [stripKey_hTag_append hIndex j0 (hnodot j0 hj0)] at hstrip
        exact hstrip ▸ hj0
    · intro hj
      apply List.mem_map.mpr
      refine ⟨hTag hIndex ++ j, List.mem_filter.mpr ⟨?_, ?_⟩,
        stripKey_hTag_append hIndex j (hnodot j hj)⟩
      · exact (foldl_redis_data_keys hIndex _ ops ⟨[]⟩).mpr (Or.inr ⟨j, hj, rfl⟩)
      · simp [isPrefixOf_append_self]

theorem claim6_redis_namespacing_witness :
    [48] ∈ redisKeys 0 (runRedis 0 [([48], PyVal.tup [.int 1])]) :=
  ((claim6_redis_namespacing 0 [([48], PyVal.tup [.int 1])] (by decide)).2 [48]).mpr
    (by decide)

end LSH
